import Mathlib

/-!
Verification of the MPT node layer of this repository
(`src/category/mpt/node.hpp`), as a shallow embedding.

Bytes are modelled as natural numbers below 256, buffers as `List Nat`,
machine integers as `Nat` with explicit bounds.  Functions whose bodies
appear in the header (`node_disk_pages_spare_15`, `calculate_node_size`,
`deserialize_node_from_buffer`, `copy_node`, `NodeChildrenRange`,
`MAX_VALUE_LEN_OF_LEAF`) are translated from that source; functions that
the header only declares (the layout accessors, `get_mem_size`,
`get_disk_size`, `serialize_node_to_buffer`, `to_child_index`, node
construction) are modelled from the specification, as marked in their
doc comments.
-/

namespace MonadMpt

/-- Size of a Keccak-256 hash in bytes (`KECCAK256_SIZE` in the source). -/
def KECCAK256_SIZE : Nat := 32

/-- Size in bytes of an in-memory child pointer, `sizeof(Node *)` on the
64-bit target the header is written for (`static_assert(alignof(Node) == 8)`). -/
def sizeof_pointer : Nat := 8

/-- Modelled from the spec: `chunk_offset_t` (physical chunk id, in-chunk
offset and a 16-bit spare field) is an 8-byte record; its definition lives in
the storage-pool header, which is outside this repository's sources. -/
def sizeof_chunk_offset : Nat := 8

/-- Modelled from the spec: `compact_virtual_chunk_offset_t` is a 5-byte
truncated virtual offset (spec section 3.1); defined outside these sources. -/
def sizeof_compact_virtual_chunk_offset : Nat := 5

/-- `NodeBase::disk_size_bytes = sizeof(uint32_t)`: the on-disk size prefix. -/
def disk_size_bytes : Nat := 4

/-- `NodeBase::max_disk_size`: 256 MiB, same as the storage chunk size. -/
def max_disk_size : Nat := 256 * 1024 * 1024

/-- `NodeBase::max_size = max_disk_size + max_number_of_children * KECCAK256_SIZE`. -/
def max_size : Nat := max_disk_size + 16 * KECCAK256_SIZE

/-- Fuel-driven helper for `popcount`; the fuel dominates the argument, making
the recursion structural so that concrete instances reduce in the kernel. -/
def popcountAux : Nat → Nat → Nat
  | 0, _ => 0
  | fuel + 1, n => if n = 0 then 0 else n % 2 + popcountAux fuel (n / 2)

/-- Number of set bits, as computed by `std::popcount` on the 16-bit mask. -/
def popcount (n : Nat) : Nat := popcountAux n n

/-- Fuel-driven helper for `ctz`. -/
def ctzAux : Nat → Nat → Nat
  | 0, _ => 0
  | fuel + 1, n => if n % 2 = 1 then 0 else ctzAux fuel (n / 2) + 1

/-- Count of trailing zero bits (`__builtin_ctzl`); meaningful for positive
arguments only, exactly as in the source where the iterator never
dereferences a zero mask. -/
def ctz (n : Nat) : Nat := ctzAux n n

/-- Fuel-driven helper for `bitlen`. -/
def bitlenAux : Nat → Nat → Nat
  | 0, _ => 0
  | fuel + 1, n => if n = 0 then 0 else bitlenAux fuel (n / 2) + 1

/-- Bit width of a natural number: `bitlen n = 0` for `n = 0`, otherwise the
position of the highest set bit plus one.  For a 32-bit value this equals
`std::numeric_limits<unsigned>::digits - std::countl_zero n`. -/
def bitlen (n : Nat) : Nat := bitlenAux n n

namespace node_disk_pages_spare_15

/-- The encoding constructor `node_disk_pages_spare_15(unsigned pages)`:
`exp = pages >> 10`; `shift` is the bit width of `exp`; `count` is
`pages >> shift` rounded up; one conditional halving when `count`
exceeds 1023.  Returns the `(count, shift)` pair that the constructor
stores (before the 10-bit/5-bit masking applied by the bitfields). -/
def encode (pages : Nat) : Nat × Nat :=
  let exp := pages >>> 10
  let shift := bitlen exp
  let count := (pages >>> shift) + (if pages &&& ((1 <<< shift) - 1) ≠ 0 then 1 else 0)
  if 1023 < count then (count >>> 1, shift + 1) else (count, shift)

/-- `to_pages()` of a stored encoding: the bitfields keep `count & 1023`
(10 bits) and `shift & 31` (5 bits), and decode as `count << shift`,
computed in the 32-bit `unsigned` return type, so the shifted value wraps
modulo `2^32`. -/
def to_pages (count shift : Nat) : Nat :=
  ((count % 1024) <<< (shift % 32)) % 2 ^ 32

end node_disk_pages_spare_15

/-- One step per set bit, fuel-driven: `operator++` clears the lowest set
bit (`mask_ &= mask_ - 1`); dereferencing yields `__builtin_ctzl(mask_)`;
iteration stops when the mask reaches zero. -/
def childrenStepsAux : Nat → Nat → List Nat
  | 0, _ => []
  | fuel + 1, m => if m = 0 then [] else ctz m :: childrenStepsAux fuel (m &&& (m - 1))

/-- The branch nibbles yielded by iterating `NodeChildrenRange(mask)` from
`begin()` until the sentinel. -/
def childrenSteps (m : Nat) : List Nat := childrenStepsAux m m

/-- Pair each element of a list with a counter starting at `i`; models the
iterator's `index_` field, which starts at 0 and increments on each
`operator++`. -/
def enumFromN : Nat → List Nat → List (Nat × Nat)
  | _, [] => []
  | i, b :: bs => (i, b) :: enumFromN (i + 1) bs

/-- The full sequence of `(dense_index, branch)` pairs produced by iterating
`NodeChildrenRange(mask)`. -/
def NodeChildrenRange (mask : Nat) : List (Nat × Nat) :=
  enumFromN 0 (childrenSteps mask)

/-- Modelled from the spec: `NodeBase::to_child_index(branch)` equals
`popcount(mask & ((1 << branch) - 1))` (section 3.3); the header contains
only its declaration. -/
def to_child_index (mask branch : Nat) : Nat :=
  popcount (mask &&& ((1 <<< branch) - 1))

/-- Little-endian byte image of a 16-bit value. -/
def u16LE (v : Nat) : List Nat := [v % 2 ^ 8, v / 2 ^ 8 % 2 ^ 8]

/-- Little-endian byte image of a 32-bit value. -/
def u32LE (v : Nat) : List Nat :=
  [v % 2 ^ 8, v / 2 ^ 8 % 2 ^ 8, v / 2 ^ 16 % 2 ^ 8, v / 2 ^ 24 % 2 ^ 8]

/-- Little-endian byte image of a 5-byte (`compact_virtual_chunk_offset_t`)
value. -/
def u40LE (v : Nat) : List Nat :=
  [v % 2 ^ 8, v / 2 ^ 8 % 2 ^ 8, v / 2 ^ 16 % 2 ^ 8, v / 2 ^ 24 % 2 ^ 8,
   v / 2 ^ 32 % 2 ^ 8]

/-- Little-endian byte image of a 64-bit value. -/
def u64LE (v : Nat) : List Nat :=
  [v % 2 ^ 8, v / 2 ^ 8 % 2 ^ 8, v / 2 ^ 16 % 2 ^ 8, v / 2 ^ 24 % 2 ^ 8,
   v / 2 ^ 32 % 2 ^ 8, v / 2 ^ 40 % 2 ^ 8, v / 2 ^ 48 % 2 ^ 8, v / 2 ^ 56 % 2 ^ 8]

/-- Byte read at index `i`; a read of a C byte buffer always produces a
value below 256. -/
def byteAt (l : List Nat) (i : Nat) : Nat := l.getD i 0 % 2 ^ 8

/-- `unaligned_load<uint16_t>` at byte offset `i` (little-endian). -/
def readU16 (l : List Nat) (i : Nat) : Nat := byteAt l i + 2 ^ 8 * byteAt l (i + 1)

/-- `unaligned_load<uint32_t>` at byte offset `i` (little-endian). -/
def readU32 (l : List Nat) (i : Nat) : Nat :=
  byteAt l i + 2 ^ 8 * byteAt l (i + 1) + 2 ^ 16 * byteAt l (i + 2) +
    2 ^ 24 * byteAt l (i + 3)

/-- `calculate_node_size` from the header: `sizeof(Node)` (16 by the
source's `static_assert`) plus, per child, one `uint16_t` child-data
offset, two `compact_virtual_chunk_offset_t` min offsets, one `int64_t`
subtrie min version, one `chunk_offset_t` and one `Node *`, plus the
variable trailing regions. -/
def calculate_node_size (number_of_children total_child_data_size value_size
    path_size data_size : Nat) : Nat :=
  16 + (2 + sizeof_compact_virtual_chunk_offset * 2 + 8 + sizeof_chunk_offset +
      sizeof_pointer) * number_of_children +
    total_child_data_size + value_size + path_size + data_size

/-- `MAX_VALUE_LEN_OF_LEAF` from the header: the maximum disk size minus the
overhead of a childless node with a Keccak-length path and Keccak-length
data region. -/
def MAX_VALUE_LEN_OF_LEAF : Nat :=
  max_disk_size - calculate_node_size 0 0 0 KECCAK256_SIZE KECCAK256_SIZE

/-- Per-child cached state of a node: the child's physical offset
(`fnext`), the fast-list and slow-list compact minimum offsets, the subtrie
minimum version, and the variable-length cached child bytes. -/
structure ChildEntry where
  fnext : Nat
  min_offset_fast : Nat
  min_offset_slow : Nat
  subtrie_min_version : Nat
  child_data : List Nat

/-- Logical content of the packed node record of section 3.3: the fixed
header fields, the per-child entries in ascending branch order, the
path/value/inline-data regions, and the in-memory `next[]` pointer words. -/
structure MptNode where
  mask : Nat
  has_value : Bool
  path_nibble_index_start : Nat
  data_len : Nat
  path_nibble_index_end : Nat
  value_len : Nat
  version : Nat
  children : List ChildEntry
  path : List Nat
  value : List Nat
  data : List Nat
  next : List Nat

/-- The packed `bitpacked` byte: bit 0 `has_value`, bit 1
`path_nibble_index_start`, bits 2..7 `data_len`. -/
def MptNode.bitpacked (N : MptNode) : Nat :=
  (if N.has_value then 1 else 0) + 2 * N.path_nibble_index_start + 4 * N.data_len

/-- Modelled from the spec: the number of path bytes is zero when
`path_nibble_index_end` is zero and otherwise
`ceil(end / 2) - floor(start / 2)` (section 3.3); the accessor body is not
in the header. -/
def path_bytes_of (path_start path_end : Nat) : Nat :=
  if path_end = 0 then 0 else (path_end + 1) / 2 - path_start / 2

/-- `path_bytes()` of a node. -/
def MptNode.path_bytes (N : MptNode) : Nat :=
  path_bytes_of N.path_nibble_index_start N.path_nibble_index_end

/-- Total length of the concatenated child-data region. -/
def MptNode.total_child_data (N : MptNode) : Nat :=
  (N.children.map (fun c => c.child_data.length)).sum

/-- Cumulative end offsets of consecutive blocks of the given lengths: the
contents of the `child_data_offsets` array, so that `child_data_len(i)` is
`child_data_offset(i) - child_data_offset(i-1)` and the last entry is the
total child-data length (which `get_mem_size` needs to recover). -/
def cumSums (acc : Nat) : List Nat → List Nat
  | [] => []
  | x :: xs => (acc + x) :: cumSums (acc + x) xs

/-- Modelled from the spec: the byte image of the node body — everything of
the in-memory record except the trailing `next[]` pointer area.  The fixed
16-byte header comes first; the per-child arrays follow, `fnext` first (it
sits at the header's trailing `fnext_data` member in the source), then the
fast and slow compact min-offset arrays, the subtrie min-version array and
the `uint16_t` child-data offsets; then path, value, inline data and the
concatenated child data (sections 3.3 and 6). -/
def MptNode.bodyBytes (N : MptNode) : List Nat :=
  u16LE N.mask ++ [N.bitpacked, N.path_nibble_index_end] ++ u32LE N.value_len ++
    u64LE N.version ++
    (N.children.map (fun c => u64LE c.fnext)).flatten ++
    (N.children.map (fun c => u40LE c.min_offset_fast)).flatten ++
    (N.children.map (fun c => u40LE c.min_offset_slow)).flatten ++
    (N.children.map (fun c => u64LE c.subtrie_min_version)).flatten ++
    ((cumSums 0 (N.children.map (fun c => c.child_data.length))).map u16LE).flatten ++
    N.path ++ N.value ++ N.data ++
    (N.children.map (fun c => c.child_data)).flatten

/-- The full in-memory image: the body followed by the `next[]` region. -/
def MptNode.toBytes (N : MptNode) : List Nat :=
  N.bodyBytes ++ (N.next.map u64LE).flatten

/-- Modelled from the spec: `NodeBase::get_mem_size()` is the total number
of live bytes of the allocation, `next[]` region included (section 4.1). -/
def MptNode.get_mem_size (N : MptNode) : Nat := N.toBytes.length

/-- Modelled from the spec: `NodeBase::get_disk_size()` is the stored
on-disk byte count: the 32-bit `disk_size` prefix plus the node body, the
`next[]` region being never stored.  Section 4.4 fixes this count: a node
serialised at offset 0 is the prefix followed by `disk_size - 4` body
bytes, and `deserialize_node_from_buffer` (in the header) allocates
`disk_size + n*sizeof(pointer) - 4` bytes and asserts that this equals
`get_mem_size()`. -/
def MptNode.get_disk_size (N : MptNode) : Nat :=
  disk_size_bytes + N.bodyBytes.length

/-- Modelled from the spec: `NodeBase::get_mem_size()` as computed from a
raw allocation: parse `mask`, `bitpacked`, `path_nibble_index_end` and
`value_len` from the 16-byte header, read the total child-data length from
the last entry of the child-data offset array (the offset arrays occupy
bytes 16 to `16 + 26n`), and apply `calculate_node_size`. -/
def mem_size_of_bytes (l : List Nat) : Nat :=
  let mask := readU16 l 0
  let n := popcount mask
  let bp := byteAt l 2
  let path_end := byteAt l 3
  let vlen := readU32 l 4
  let total := if n = 0 then 0 else readU16 l (16 + 26 * n + 2 * (n - 1))
  calculate_node_size n total (if bp % 2 = 1 then vlen else 0)
    (path_bytes_of (bp / 2 % 2) path_end) (bp / 4)

/-- Modelled from the spec: `serialize_node_to_buffer` at `offset == 0`
writes the 32-bit `disk_size` prefix followed by the node body
(`disk_size - 4` bytes); the `next[]` region is never written
(section 4.4).  The function body lives outside this repository's sources;
only its declaration is in the header. -/
def serialize_node_to_buffer (N : MptNode) : List Nat :=
  u32LE N.get_disk_size ++ N.bodyBytes

/-- `deserialize_node_from_buffer` from the header: load the 32-bit
`disk_size`; the fatal assertions demand `disk_size ≤ max_bytes` and
`0 < disk_size ≤ max_disk_size` (`none` models a fatal assertion); load the
16-bit mask, allocate `disk_size + n*sizeof(pointer) - 4` bytes, copy
`disk_size - 4` body bytes, zero the `next[]` region (the trailing
`n*sizeof(pointer)` bytes of the allocation), and assert that the
allocation size equals `get_mem_size()` of the result. -/
def deserialize_node_from_buffer (src : List Nat) (max_bytes : Nat) :
    Option (List Nat) :=
  let disk_size := readU32 src 0
  if disk_size ≤ max_bytes ∧ 0 < disk_size ∧ disk_size ≤ max_disk_size then
    let body := src.drop disk_size_bytes
    let n := popcount (readU16 body 0)
    let alloc_size := disk_size + n * sizeof_pointer - disk_size_bytes
    let node := body.take (disk_size - disk_size_bytes) ++
      List.replicate (n * sizeof_pointer) 0
    if alloc_size = mem_size_of_bytes node then some node else none
  else none

/-- `copy_node` from the header: allocate `get_mem_size()` bytes, copy the
node's bytes, then zero the `next[]` region (the trailing
`n*sizeof(pointer)` bytes of the copy). -/
def copy_node (node : List Nat) : List Nat :=
  let alloc_size := mem_size_of_bytes node
  let n := popcount (readU16 node 0)
  node.take (alloc_size - n * sizeof_pointer) ++
    List.replicate (n * sizeof_pointer) 0

/-- The header and fixed-width per-child arrays of the body: everything
before the child-data offset array (`16 + 26n` bytes). -/
def MptNode.frontBytes (N : MptNode) : List Nat :=
  u16LE N.mask ++ [N.bitpacked, N.path_nibble_index_end] ++ u32LE N.value_len ++
    u64LE N.version ++
    (N.children.map (fun c => u64LE c.fnext)).flatten ++
    (N.children.map (fun c => u40LE c.min_offset_fast)).flatten ++
    (N.children.map (fun c => u40LE c.min_offset_slow)).flatten ++
    (N.children.map (fun c => u64LE c.subtrie_min_version)).flatten

/-- The child-data offset array of the body. -/
def MptNode.offsetsBytes (N : MptNode) : List Nat :=
  ((cumSums 0 (N.children.map (fun c => c.child_data.length))).map u16LE).flatten

/-- The trailing variable regions of the body: path, value, inline data and
concatenated child data. -/
def MptNode.tailBytes (N : MptNode) : List Nat :=
  N.path ++ N.value ++ N.data ++ (N.children.map (fun c => c.child_data)).flatten

/-- Well-formedness of the logical node record: field bounds of the packed
representation and consistency of the region lengths (sections 3.3, 3.4). -/
def MptNode.WF (N : MptNode) : Prop :=
  N.mask < 2 ^ 16 ∧
  N.children.length = popcount N.mask ∧
  N.path_nibble_index_start ≤ 1 ∧
  N.data_len ≤ 63 ∧
  N.path_nibble_index_end < 2 ^ 8 ∧
  N.value_len = N.value.length ∧
  (N.has_value = true ∨ N.value_len = 0) ∧
  N.value_len < 2 ^ 32 ∧
  N.version < 2 ^ 64 ∧
  N.path.length = N.path_bytes ∧
  N.data.length = N.data_len ∧
  N.next.length = popcount N.mask ∧
  N.total_child_data < 2 ^ 16 ∧
  N.get_disk_size ≤ max_disk_size

instance (N : MptNode) : Decidable N.WF := by
  unfold MptNode.WF
  infer_instance

/-- Modelled from the spec: constructing a leaf node (`make_node` with an
empty child span) is subject to the fatal size assertion
`value_len ≤ MAX_VALUE_LEN_OF_LEAF` (sections 3.4 and 7); `none` models the
fatal assertion.  The produced record follows section 4.3. -/
def make_leaf (value path : List Nat) (path_start path_end version : Nat) :
    Option MptNode :=
  if value.length ≤ MAX_VALUE_LEN_OF_LEAF then
    some { mask := 0, has_value := true, path_nibble_index_start := path_start,
           data_len := 0, path_nibble_index_end := path_end,
           value_len := value.length, version := version, children := [],
           path := path, value := value, data := [], next := [] }
  else none

/-- Scenario S1 of the spec: a childless leaf with a 5-byte value and a
4-nibble path. -/
def leafS1 : MptNode :=
  { mask := 0, has_value := true, path_nibble_index_start := 0, data_len := 0,
    path_nibble_index_end := 4, value_len := 5, version := 7, children := [],
    path := [18, 52], value := [104, 101, 108, 108, 111], data := [],
    next := [] }

/-- A branch-with-leaf node with two children, used as a concrete input for
the universally quantified theorems. -/
def nodeW : MptNode :=
  { mask := 3, has_value := true, path_nibble_index_start := 1, data_len := 2,
    path_nibble_index_end := 3, value_len := 3, version := 42,
    children := [
      { fnext := 1, min_offset_fast := 2, min_offset_slow := 3,
        subtrie_min_version := 4, child_data := [170] },
      { fnext := 5, min_offset_fast := 6, min_offset_slow := 7,
        subtrie_min_version := 8, child_data := [187, 204] }],
    path := [1, 35], value := [1, 2, 3], data := [9, 9], next := [0, 0] }

/-- The scenario-S6 leaf: value of the maximal length, a 64-nibble
(32-byte) path, no inline data. -/
def bigLeaf : MptNode :=
  { mask := 0, has_value := true, path_nibble_index_start := 0, data_len := 0,
    path_nibble_index_end := 64, value_len := MAX_VALUE_LEN_OF_LEAF,
    version := 0, children := [], path := List.replicate 32 0,
    value := List.replicate MAX_VALUE_LEN_OF_LEAF 0, data := [], next := [] }

end MonadMpt

namespace MonadMpt

theorem popcountAux_congr : ∀ f g n : Nat, n ≤ f → n ≤ g →
    popcountAux f n = popcountAux g n := by
  intro f
  induction f with
  | zero =>
    intro g n hf _
    interval_cases n
    cases g <;> simp [popcountAux]
  | succ f ih =>
    intro g n hf hg
    by_cases hn : n = 0
    · subst hn
      cases g <;> simp [popcountAux]
    · obtain ⟨g', rfl⟩ : ∃ g', g = g' + 1 := by
        cases g with
        | zero => omega
        | succ g' => exact ⟨g', rfl⟩
      simp only [popcountAux, if_neg hn]
      have h2 : n / 2 < n := Nat.div_lt_self (by omega) (by omega)
      rw [ih g' (n / 2) (by omega) (by omega)]

theorem popcount_zero : popcount 0 = 0 := rfl

theorem popcount_rec (n : Nat) (hn : n ≠ 0) :
    popcount n = n % 2 + popcount (n / 2) := by
  obtain ⟨m, rfl⟩ : ∃ m, n = m + 1 := by
    cases n with
    | zero => omega
    | succ m => exact ⟨m, rfl⟩
  show popcountAux (m + 1) (m + 1) = _
  simp only [popcountAux, if_neg hn]
  congr 1
  exact popcountAux_congr m ((m + 1) / 2) ((m + 1) / 2) (by omega) le_rfl

theorem ctzAux_congr : ∀ f g n : Nat, 1 ≤ n → n ≤ f → n ≤ g →
    ctzAux f n = ctzAux g n := by
  intro f
  induction f with
  | zero => intro g n h1 hf _; omega
  | succ f ih =>
    intro g n h1 hf hg
    obtain ⟨g', rfl⟩ : ∃ g', g = g' + 1 := by
      cases g with
      | zero => omega
      | succ g' => exact ⟨g', rfl⟩
    by_cases hodd : n % 2 = 1
    · simp [ctzAux, hodd]
    · simp only [ctzAux, if_neg hodd]
      congr 1
      exact ih g' (n / 2) (by omega) (by omega) (by omega)

theorem ctz_odd (n : Nat) (h : n % 2 = 1) : ctz n = 0 := by
  have h1 : 1 ≤ n := by omega
  obtain ⟨m, rfl⟩ : ∃ m, n = m + 1 := by
    cases n with
    | zero => omega
    | succ m => exact ⟨m, rfl⟩
  show ctzAux (m + 1) (m + 1) = 0
  simp [ctzAux, h]

theorem ctz_even (n : Nat) (h0 : n ≠ 0) (h : n % 2 = 0) :
    ctz n = ctz (n / 2) + 1 := by
  obtain ⟨m, rfl⟩ : ∃ m, n = m + 1 := by
    cases n with
    | zero => omega
    | succ m => exact ⟨m, rfl⟩
  show ctzAux (m + 1) (m + 1) = _
  simp only [ctzAux]
  rw [if_neg (by omega : ¬ (m + 1) % 2 = 1)]
  congr 1
  exact ctzAux_congr m ((m + 1) / 2) ((m + 1) / 2) (by omega) (by omega) le_rfl

theorem bitlenAux_congr : ∀ f g n : Nat, n ≤ f → n ≤ g →
    bitlenAux f n = bitlenAux g n := by
  intro f
  induction f with
  | zero =>
    intro g n hf _
    interval_cases n
    cases g <;> simp [bitlenAux]
  | succ f ih =>
    intro g n hf hg
    by_cases hn : n = 0
    · subst hn
      cases g <;> simp [bitlenAux]
    · obtain ⟨g', rfl⟩ : ∃ g', g = g' + 1 := by
        cases g with
        | zero => omega
        | succ g' => exact ⟨g', rfl⟩
      simp only [bitlenAux, if_neg hn]
      congr 1
      exact ih g' (n / 2) (by omega) (by omega)

theorem bitlen_zero : bitlen 0 = 0 := rfl

theorem bitlen_rec (n : Nat) (hn : n ≠ 0) : bitlen n = bitlen (n / 2) + 1 := by
  obtain ⟨m, rfl⟩ : ∃ m, n = m + 1 := by
    cases n with
    | zero => omega
    | succ m => exact ⟨m, rfl⟩
  show bitlenAux (m + 1) (m + 1) = _
  simp only [bitlenAux, if_neg hn]
  congr 1
  exact bitlenAux_congr m ((m + 1) / 2) ((m + 1) / 2) (by omega) le_rfl

theorem bitlen_bounds : ∀ n : Nat, 1 ≤ n → n < 2 ^ bitlen n ∧ 2 ^ bitlen n ≤ 2 * n := by
  intro n
  induction n using Nat.strong_induction_on with
  | _ n ih =>
    intro h1
    rw [bitlen_rec n (by omega)]
    by_cases h2 : n / 2 = 0
    · have hb : bitlen (n / 2) = 0 := by rw [h2]; rfl
      rw [hb]
      have : n = 1 := by omega
      subst this
      norm_num
    · obtain ⟨hlt, hle⟩ := ih (n / 2) (Nat.div_lt_self (by omega) (by omega)) (by omega)
      constructor
      · have : n / 2 + 1 ≤ 2 ^ bitlen (n / 2) := hlt
        calc n ≤ 2 * (n / 2) + 1 := by omega
        _ < 2 * (n / 2 + 1) := by omega
        _ ≤ 2 * 2 ^ bitlen (n / 2) := by omega
        _ = 2 ^ (bitlen (n / 2) + 1) := by ring
      · calc 2 ^ (bitlen (n / 2) + 1) = 2 * 2 ^ bitlen (n / 2) := by ring
        _ ≤ 2 * (2 * (n / 2)) := by omega
        _ ≤ 2 * n := by omega

theorem bitlen_le_of_lt {n k : Nat} (h : n < 2 ^ k) : bitlen n ≤ k := by
  by_cases h0 : n = 0
  · subst h0; simp [bitlen_zero]
  · by_contra hgt
    have h1 : k + 1 ≤ bitlen n := by omega
    have h2 : 2 ^ (k + 1) ≤ 2 ^ bitlen n := Nat.pow_le_pow_right (by omega) h1
    have h3 := (bitlen_bounds n (by omega)).2
    have h4 : 2 ^ (k + 1) = 2 * 2 ^ k := by ring
    omega

theorem land_two_pow_sub_one_eq_mod (x s : Nat) : x &&& (2 ^ s - 1) = x % 2 ^ s := by
  apply Nat.eq_of_testBit_eq
  intro i
  rw [Nat.testBit_land, Nat.testBit_two_pow_sub_one, Nat.testBit_mod_two_pow]
  rw [Bool.and_comm]

end MonadMpt

namespace MonadMpt

theorem ceil_div_mul_ge (P E : Nat) (hE : 0 < E) :
    P ≤ (P / E + (if P % E ≠ 0 then 1 else 0)) * E := by
  by_cases h : P % E = 0
  · simp only [h, ne_eq, not_true_eq_false, if_false, Nat.add_zero]
    exact (Nat.div_mul_cancel (Nat.dvd_of_mod_eq_zero h)).ge
  · simp only [ne_eq, h, not_false_eq_true, if_true]
    have h1 := Nat.div_add_mod P E
    have h2 : P % E < E := Nat.mod_lt _ hE
    have : P < (P / E + 1) * E := by
      calc P = E * (P / E) + P % E := h1.symm
      _ < E * (P / E) + E := by omega
      _ = (P / E + 1) * E := by ring
    omega

theorem ceil_div_mul_le (P E : Nat) :
    (P / E + (if P % E ≠ 0 then 1 else 0)) * E ≤ P + E := by
  have h1 : P / E * E ≤ P := Nat.div_mul_le_self P E
  by_cases h : P % E = 0
  · simp only [h, ne_eq, not_true_eq_false, if_false, Nat.add_zero]
    omega
  · simp only [ne_eq, h, not_false_eq_true, if_true]
    have : (P / E + 1) * E = P / E * E + E := by ring
    omega

theorem node_disk_pages_spare_15.encode_eq_div (P : Nat) :
    node_disk_pages_spare_15.encode P =
      (if 1023 < P / 2 ^ bitlen (P / 1024) +
            (if P % 2 ^ bitlen (P / 1024) ≠ 0 then 1 else 0)
       then ((P / 2 ^ bitlen (P / 1024) +
              (if P % 2 ^ bitlen (P / 1024) ≠ 0 then 1 else 0)) / 2,
             bitlen (P / 1024) + 1)
       else (P / 2 ^ bitlen (P / 1024) +
             (if P % 2 ^ bitlen (P / 1024) ≠ 0 then 1 else 0),
             bitlen (P / 1024))) := by
  show (let exp := P >>> 10
        let shift := bitlen exp
        let count := (P >>> shift) + (if P &&& ((1 <<< shift) - 1) ≠ 0 then 1 else 0)
        if 1023 < count then (count >>> 1, shift + 1) else (count, shift)) = _
  simp only [Nat.shiftRight_eq_div_pow, Nat.shiftLeft_eq, one_mul,
    land_two_pow_sub_one_eq_mod]

theorem node_disk_pages_spare_15.encode_small (P : Nat) (h : P ≤ 1023) :
    node_disk_pages_spare_15.encode P = (P, 0) := by
  rw [node_disk_pages_spare_15.encode_eq_div]
  have h0 : P / 1024 = 0 := Nat.div_eq_of_lt (by omega)
  rw [h0, bitlen_zero]
  simp only [pow_zero, Nat.div_one, Nat.mod_one, ne_eq, not_true_eq_false,
    if_false, Nat.add_zero]
  rw [if_neg (by omega : ¬ 1023 < P)]

theorem to_pages_unmasked (c s : Nat) (hc : c < 1024) (hs : s < 32)
    (hw : c * 2 ^ s < 2 ^ 32) :
    node_disk_pages_spare_15.to_pages c s = c * 2 ^ s := by
  unfold node_disk_pages_spare_15.to_pages
  rw [Nat.shiftLeft_eq, Nat.mod_eq_of_lt hc, Nat.mod_eq_of_lt hs,
    Nat.mod_eq_of_lt hw]

/-- Claim C10: for every page count `P` in `[0, 1023]` the
`node_disk_pages_spare_15` encoding is exact: it yields `shift = 0` and
`count = P`, and decoding gives back exactly `P`. -/
theorem node_disk_pages_spare_15.encode_exact_small (P : Nat) (h : P ≤ 1023) :
    node_disk_pages_spare_15.encode P = (P, 0) ∧
      node_disk_pages_spare_15.to_pages (node_disk_pages_spare_15.encode P).1
        (node_disk_pages_spare_15.encode P).2 = P := by
  have he := node_disk_pages_spare_15.encode_small P h
  refine ⟨he, ?_⟩
  rw [he]
  show node_disk_pages_spare_15.to_pages P 0 = P
  rw [to_pages_unmasked P 0 (by omega) (by omega) (by omega)]
  omega

theorem node_disk_pages_spare_15.encode_exact_small_witness :
    (1000 : Nat) ≤ 1023 ∧
      (node_disk_pages_spare_15.encode 1000 = (1000, 0) ∧
        node_disk_pages_spare_15.to_pages (node_disk_pages_spare_15.encode 1000).1
          (node_disk_pages_spare_15.encode 1000).2 = 1000) :=
  ⟨by decide, node_disk_pages_spare_15.encode_exact_small 1000 (by decide)⟩

end MonadMpt

namespace MonadMpt

/-- Claim C4 counterexample: at `pages = 4294967295` (`0xFFFFFFFF`) the
constructor computes `count = 512`, `shift = 23` after the halving step,
and the 32-bit decode `512u << 23` wraps to 0, so the final fatal
assertion `to_pages() >= pages` fires: the assertion-failure branch is
reachable. -/
theorem node_disk_pages_spare_15.encode_assertion_fires :
    (4294967295 : Nat) < 2 ^ 32 ∧
      node_disk_pages_spare_15.encode 4294967295 = (512, 23) ∧
      node_disk_pages_spare_15.to_pages 512 23 = 0 ∧
      ¬(4294967295 ≤ node_disk_pages_spare_15.to_pages
          (node_disk_pages_spare_15.encode 4294967295).1
          (node_disk_pages_spare_15.encode 4294967295).2) := by
  decide

/-- Claim C4 (amended): for every page count `pages` up to `1023 * 2^22`,
the values computed by the `node_disk_pages_spare_15` constructor satisfy
all three fatal assertions: `count ≤ 1023`, `shift ≤ 31`, and the decoded
32-bit page count `to_pages()` is at least `pages`.  For larger 32-bit
inputs the decode wraps modulo `2^32` below `pages` and the constructor's
final assertion fires. -/
theorem node_disk_pages_spare_15.encode_assertions_hold (pages : Nat)
    (h : pages ≤ 1023 * 2 ^ 22) :
    (node_disk_pages_spare_15.encode pages).1 ≤ 1023 ∧
      (node_disk_pages_spare_15.encode pages).2 ≤ 31 ∧
      pages ≤ node_disk_pages_spare_15.to_pages
        (node_disk_pages_spare_15.encode pages).1
        (node_disk_pages_spare_15.encode pages).2 := by
  by_cases hsmall : pages ≤ 1023
  · rw [node_disk_pages_spare_15.encode_small pages hsmall]
    refine ⟨hsmall, Nat.zero_le _, ?_⟩
    show pages ≤ node_disk_pages_spare_15.to_pages pages 0
    rw [to_pages_unmasked pages 0 (by omega) (by omega) (by omega)]
    omega
  · rw [node_disk_pages_spare_15.encode_eq_div]
    have hE : 0 < 2 ^ bitlen (pages / 1024) := Nat.pos_pow_of_pos _ (by omega)
    have hge := ceil_div_mul_ge pages (2 ^ bitlen (pages / 1024)) hE
    have hdm := Nat.div_add_mod pages (2 ^ bitlen (pages / 1024))
    set s := bitlen (pages / 1024) with hs
    have hexp1 : 1 ≤ pages / 1024 := by omega
    have hexp_lt : pages / 1024 < 2 ^ s := (bitlen_bounds _ hexp1).1
    have hs22 : s ≤ 22 := by
      apply bitlen_le_of_lt
      show pages / 1024 < 2 ^ 22
      omega
    have hE22 : 2 ^ s ≤ 2 ^ 22 := Nat.pow_le_pow_right (by omega) hs22
    have hpages_lt : pages < 1024 * 2 ^ s := by
      have h1 := (Nat.div_lt_iff_lt_mul (by omega : 0 < 1024)).mp hexp_lt
      omega
    have hq : pages / 2 ^ s < 1024 := (Nat.div_lt_iff_lt_mul hE).mpr (by omega)
    set ind := (if pages % 2 ^ s ≠ 0 then 1 else 0) with hind
    have hind01 : ind ≤ 1 := by rw [hind]; split <;> omega
    set c := pages / 2 ^ s + ind with hc
    have hcle : c ≤ 1024 := by omega
    by_cases hbig : 1023 < c
    · have hc1024 : c = 1024 := by omega
      have hq1023 : pages / 2 ^ s = 1023 := by omega
      have hind1 : ind = 1 := by omega
      have hmod : pages % 2 ^ s ≠ 0 := by
        intro hz
        rw [hind] at hind1
        rw [if_neg (by simp [hz])] at hind1
        omega
      rw [hq1023] at hdm
      have hswrap : 2 ^ s ≤ 4194303 := by omega
      rw [if_pos hbig]
      refine ⟨by simp [hc1024], by simp; omega, ?_⟩
      show pages ≤ node_disk_pages_spare_15.to_pages (c / 2) (s + 1)
      have heq : c / 2 * 2 ^ (s + 1) = c * 2 ^ s := by
        rw [hc1024]; ring
      rw [to_pages_unmasked (c / 2) (s + 1) (by omega) (by omega)
        (by rw [heq, hc1024]; omega)]
      rw [heq]
      exact hge
    · rw [if_neg hbig]
      refine ⟨by simp; omega, by simp; omega, ?_⟩
      show pages ≤ node_disk_pages_spare_15.to_pages c s
      have hwrap : c * 2 ^ s < 2 ^ 32 := by
        have h1 : c * 2 ^ s ≤ 1023 * 2 ^ 22 := Nat.mul_le_mul (by omega) hE22
        omega
      rw [to_pages_unmasked c s (by omega) (by omega) hwrap]
      exact hge

theorem node_disk_pages_spare_15.encode_assertions_hold_witness :
    (1050000 : Nat) ≤ 1023 * 2 ^ 22 ∧
      ((node_disk_pages_spare_15.encode 1050000).1 ≤ 1023 ∧
        (node_disk_pages_spare_15.encode 1050000).2 ≤ 31 ∧
        1050000 ≤ node_disk_pages_spare_15.to_pages
          (node_disk_pages_spare_15.encode 1050000).1
          (node_disk_pages_spare_15.encode 1050000).2) :=
  ⟨by norm_num, node_disk_pages_spare_15.encode_assertions_hold 1050000 (by norm_num)⟩

/-- Claim C3: for every page count `P` below `2^20`, the decoded value
`count << shift` of the spare-15 encoding is at least `P` and strictly
below `2·P + 1024`. -/
theorem node_disk_pages_spare_15.page_encoding_bounds (P : Nat) (h : P < 2 ^ 20) :
    P ≤ node_disk_pages_spare_15.to_pages
        (node_disk_pages_spare_15.encode P).1 (node_disk_pages_spare_15.encode P).2 ∧
      node_disk_pages_spare_15.to_pages
        (node_disk_pages_spare_15.encode P).1 (node_disk_pages_spare_15.encode P).2 <
        2 * P + 1024 := by
  by_cases hsmall : P ≤ 1023
  · rw [node_disk_pages_spare_15.encode_small P hsmall]
    have hp : node_disk_pages_spare_15.to_pages P 0 = P := by
      rw [to_pages_unmasked P 0 (by omega) (by omega) (by omega)]; omega
    show P ≤ node_disk_pages_spare_15.to_pages P 0 ∧
      node_disk_pages_spare_15.to_pages P 0 < 2 * P + 1024
    rw [hp]
    omega
  · rw [node_disk_pages_spare_15.encode_eq_div]
    have hE : 0 < 2 ^ bitlen (P / 1024) := Nat.pos_pow_of_pos _ (by omega)
    have hge := ceil_div_mul_ge P (2 ^ bitlen (P / 1024)) hE
    have hle := ceil_div_mul_le P (2 ^ bitlen (P / 1024))
    have hqE : P / 2 ^ bitlen (P / 1024) * 2 ^ bitlen (P / 1024) ≤ P :=
      Nat.div_mul_le_self P _
    set s := bitlen (P / 1024) with hs
    have hexp1 : 1 ≤ P / 1024 := by omega
    have hexp_lt : P / 1024 < 2 ^ s := (bitlen_bounds _ hexp1).1
    have hs10 : s ≤ 10 := by
      apply bitlen_le_of_lt
      show P / 1024 < 2 ^ 10
      omega
    have hE1024 : 2 ^ s ≤ 1024 := by
      calc 2 ^ s ≤ 2 ^ 10 := Nat.pow_le_pow_right (by omega) hs10
      _ = 1024 := by norm_num
    have hpages_lt : P < 1024 * 2 ^ s := by
      have h1 := (Nat.div_lt_iff_lt_mul (by omega : 0 < 1024)).mp hexp_lt
      omega
    have hq : P / 2 ^ s < 1024 := (Nat.div_lt_iff_lt_mul hE).mpr (by omega)
    set ind := (if P % 2 ^ s ≠ 0 then 1 else 0) with hind
    have hind01 : ind ≤ 1 := by rw [hind]; split <;> omega
    set c := P / 2 ^ s + ind with hc
    have hcle : c ≤ 1024 := by omega
    by_cases hbig : 1023 < c
    · have hc1024 : c = 1024 := by omega
      rw [if_pos hbig]
      show P ≤ node_disk_pages_spare_15.to_pages (c / 2) (s + 1) ∧
        node_disk_pages_spare_15.to_pages (c / 2) (s + 1) < 2 * P + 1024
      have heq : c / 2 * 2 ^ (s + 1) = c * 2 ^ s := by
        rw [hc1024]; ring
      rw [to_pages_unmasked (c / 2) (s + 1) (by omega) (by omega)
        (by rw [heq, hc1024]; omega)]
      rw [heq]
      refine ⟨hge, ?_⟩
      have hq1023 : 1023 ≤ P / 2 ^ s := by omega
      have hmul : 1023 * 2 ^ s ≤ P / 2 ^ s * 2 ^ s :=
        Nat.mul_le_mul_right _ hq1023
      have hc2 : c * 2 ^ s = 1024 * 2 ^ s := by rw [hc1024]
      omega
    · rw [if_neg hbig]
      show P ≤ node_disk_pages_spare_15.to_pages c s ∧
        node_disk_pages_spare_15.to_pages c s < 2 * P + 1024
      have hwrap : c * 2 ^ s < 2 ^ 32 := by
        have h1 : c * 2 ^ s ≤ 1023 * 1024 := Nat.mul_le_mul (by omega) hE1024
        omega
      rw [to_pages_unmasked c s (by omega) (by omega) hwrap]
      refine ⟨hge, ?_⟩
      omega

theorem node_disk_pages_spare_15.page_encoding_bounds_witness :
    (1000000 : Nat) < 2 ^ 20 ∧
      (1000000 ≤ node_disk_pages_spare_15.to_pages
          (node_disk_pages_spare_15.encode 1000000).1
          (node_disk_pages_spare_15.encode 1000000).2 ∧
        node_disk_pages_spare_15.to_pages
          (node_disk_pages_spare_15.encode 1000000).1
          (node_disk_pages_spare_15.encode 1000000).2 < 2 * 1000000 + 1024) :=
  ⟨by norm_num, node_disk_pages_spare_15.page_encoding_bounds 1000000 (by norm_num)⟩

end MonadMpt

namespace MonadMpt

theorem flatten_map_length_const {α : Type} (cs : List α) (f : α → List Nat)
    (k : Nat) (h : ∀ c ∈ cs, (f c).length = k) :
    ((cs.map f).flatten).length = k * cs.length := by
  induction cs with
  | nil => simp
  | cons c cs ih =>
    simp only [List.map_cons, List.flatten_cons, List.length_append,
      List.length_cons]
    rw [h c (List.mem_cons_self c cs),
      ih (fun c' hc' => h c' (List.mem_cons_of_mem _ hc'))]
    ring

theorem cumSums_length (ls : List Nat) : ∀ acc, (cumSums acc ls).length = ls.length := by
  induction ls with
  | nil => intro acc; rfl
  | cons x xs ih => intro acc; simp [cumSums, ih]

theorem cumSums_getD_last (ls : List Nat) : ∀ acc, ls ≠ [] →
    (cumSums acc ls).getD (ls.length - 1) 0 = acc + ls.sum := by
  induction ls with
  | nil => intro acc h; exact absurd rfl h
  | cons x xs ih =>
    intro acc _
    by_cases hx : xs = []
    · subst hx; simp [cumSums]
    · obtain ⟨m, hm⟩ : ∃ m, xs.length = m + 1 := by
        cases xs with
        | nil => exact absurd rfl hx
        | cons a as => exact ⟨as.length, rfl⟩
      have hrec := ih (acc + x) hx
      show ((acc + x) :: cumSums (acc + x) xs).getD ((x :: xs).length - 1) 0 = _
      simp only [List.length_cons, Nat.add_sub_cancel]
      rw [hm, List.getD_cons_succ, ← Nat.add_sub_cancel (n := m) (m := 1), ← hm]
      rw [hrec]
      simp only [List.sum_cons]
      omega

theorem cumSums_mem_le (ls : List Nat) : ∀ acc x, x ∈ cumSums acc ls → x ≤ acc + ls.sum := by
  induction ls with
  | nil => intro acc x h; simp [cumSums] at h
  | cons y ys ih =>
    intro acc x h
    simp only [cumSums, List.mem_cons] at h
    rcases h with rfl | h
    · simp only [List.sum_cons]
      omega
    · have := ih (acc + y) x h
      simp only [List.sum_cons]
      omega

theorem MptNode.bodyBytes_length (N : MptNode) :
    N.bodyBytes.length = 16 + 28 * N.children.length + N.total_child_data +
      N.value.length + N.path.length + N.data.length := by
  have h1 : ((N.children.map (fun c => u64LE c.fnext)).flatten).length =
      8 * N.children.length :=
    flatten_map_length_const _ _ _ (fun c _ => rfl)
  have h2 : ((N.children.map (fun c => u40LE c.min_offset_fast)).flatten).length =
      5 * N.children.length :=
    flatten_map_length_const _ _ _ (fun c _ => rfl)
  have h3 : ((N.children.map (fun c => u40LE c.min_offset_slow)).flatten).length =
      5 * N.children.length :=
    flatten_map_length_const _ _ _ (fun c _ => rfl)
  have h4 : ((N.children.map (fun c => u64LE c.subtrie_min_version)).flatten).length =
      8 * N.children.length :=
    flatten_map_length_const _ _ _ (fun c _ => rfl)
  have h5 : (((cumSums 0 (N.children.map (fun c => c.child_data.length))).map
      u16LE).flatten).length = 2 * N.children.length := by
    rw [flatten_map_length_const
        (cumSums 0 (N.children.map (fun c => c.child_data.length))) u16LE 2
        (fun c _ => rfl),
      cumSums_length, List.length_map]
  have h6 : ((N.children.map (fun c => c.child_data)).flatten).length =
      N.total_child_data := by
    rw [List.length_flatten, List.map_map]
    rfl
  unfold MptNode.bodyBytes
  simp only [List.length_append, h1, h2, h3, h4, h5, h6, List.length_cons,
    List.length_nil]
  have hu16 : (u16LE N.mask).length = 2 := rfl
  have hu32 : (u32LE N.value_len).length = 4 := rfl
  have hu64 : (u64LE N.version).length = 8 := rfl
  omega

theorem MptNode.toBytes_length (N : MptNode) :
    N.toBytes.length = N.bodyBytes.length + 8 * N.next.length := by
  unfold MptNode.toBytes
  rw [List.length_append, flatten_map_length_const N.next u64LE 8 (fun c _ => rfl)]

/-- Claim C8: `calculate_node_size` is the 16-byte fixed header plus, per
child, 2 bytes of child-data offset, two 5-byte compact min offsets, an
8-byte subtrie min version, one `chunk_offset_t` and one pointer, plus the
variable regions; and applied to a node's own parameters it equals the
node's `get_mem_size()`. -/
theorem calculate_node_size_spec (n t v p d : Nat) (N : MptNode) (h : N.WF) :
    calculate_node_size n t v p d =
      16 + (2 + 2 * 5 + 8 + sizeof_chunk_offset + sizeof_pointer) * n + t + v + p + d ∧
    calculate_node_size (popcount N.mask) N.total_child_data N.value_len
      N.path_bytes N.data_len = N.get_mem_size := by
  constructor
  · unfold calculate_node_size sizeof_compact_virtual_chunk_offset
    ring
  · obtain ⟨hmask, hchild, hstart, hdlen63, hpend, hvlen, hval, hv32, hver,
      hpathlen, hdata_len, hnext, htot, hdisk⟩ := h
    unfold MptNode.get_mem_size
    rw [MptNode.toBytes_length, MptNode.bodyBytes_length, hnext, ← hchild,
      ← hvlen, hpathlen, hdata_len]
    unfold calculate_node_size sizeof_compact_virtual_chunk_offset
      sizeof_chunk_offset sizeof_pointer
    ring

theorem calculate_node_size_spec_witness :
    nodeW.WF ∧
      (calculate_node_size 1 2 3 4 5 =
        16 + (2 + 2 * 5 + 8 + sizeof_chunk_offset + sizeof_pointer) * 1 + 2 + 3 + 4 + 5 ∧
      calculate_node_size (popcount nodeW.mask) nodeW.total_child_data
        nodeW.value_len nodeW.path_bytes nodeW.data_len = nodeW.get_mem_size) :=
  ⟨by decide, calculate_node_size_spec 1 2 3 4 5 nodeW (by decide)⟩

/-- Claim C2 (amended): for every well-formed node, `get_disk_size()` equals
`get_mem_size()` plus the 4-byte `disk_size` prefix minus
`popcount(mask) * sizeof(pointer)`; the prefix term is what the claim as
stated omits. -/
theorem get_disk_size_eq (N : MptNode) (h : N.WF) :
    N.get_disk_size =
      N.get_mem_size + disk_size_bytes - sizeof_pointer * popcount N.mask := by
  obtain ⟨hmask, hchild, hstart, hdlen63, hpend, hvlen, hval, hv32, hver,
    hpathlen, hdata_len, hnext, htot, hdisk⟩ := h
  unfold MptNode.get_disk_size MptNode.get_mem_size
  rw [MptNode.toBytes_length, hnext]
  unfold disk_size_bytes sizeof_pointer
  omega

theorem get_disk_size_eq_witness :
    leafS1.WF ∧
      leafS1.get_disk_size =
        leafS1.get_mem_size + disk_size_bytes - sizeof_pointer * popcount leafS1.mask :=
  ⟨by decide, get_disk_size_eq leafS1 (by decide)⟩

/-- Claim C2 counterexample: for the scenario-S1 leaf the stored disk size
is 27 (= mem size 23 + the 4-byte prefix), not `mem size - 8*popcount(mask)`
= 23.  Moreover prefixing the leaf's body with the claimed value 23 makes
the deserializer in the header fail its final size assertion, while the
prefix 27 deserializes back exactly, so the claimed relation is
incompatible with the source's deserializer. -/
theorem get_disk_size_counterexample :
    leafS1.get_disk_size ≠
        leafS1.get_mem_size - sizeof_pointer * popcount leafS1.mask ∧
      deserialize_node_from_buffer
        (u32LE (leafS1.get_mem_size - sizeof_pointer * popcount leafS1.mask) ++
          leafS1.bodyBytes)
        (leafS1.get_mem_size - sizeof_pointer * popcount leafS1.mask) = none ∧
      deserialize_node_from_buffer (serialize_node_to_buffer leafS1)
        leafS1.get_disk_size = some leafS1.toBytes := by
  decide

end MonadMpt

namespace MonadMpt

theorem byteAt_of_drop (l : List Nat) (a k : Nat) :
    byteAt (l.drop a) k = byteAt l (a + k) := by
  unfold byteAt
  rw [List.getD_eq_getElem?_getD, List.getD_eq_getElem?_getD, List.getElem?_drop]

theorem readU16_of_append (P X : List Nat) (k : Nat) :
    readU16 (P ++ X) (P.length + k) = readU16 X k := by
  unfold readU16
  rw [show P.length + k + 1 = P.length + (k + 1) from by omega]
  rw [← byteAt_of_drop (P ++ X) P.length k, ← byteAt_of_drop (P ++ X) P.length (k + 1)]
  rw [List.drop_left]

theorem bitpacked_lt (N : MptNode) (hs : N.path_nibble_index_start ≤ 1)
    (hd : N.data_len ≤ 63) : N.bitpacked < 2 ^ 8 := by
  unfold MptNode.bitpacked
  split <;> omega

theorem parse_mask (N : MptNode) (rest : List Nat) (h : N.mask < 2 ^ 16) :
    readU16 (N.bodyBytes ++ rest) 0 = N.mask := by
  unfold MptNode.bodyBytes u16LE readU16 byteAt
  simp only [List.cons_append, List.nil_append, List.append_assoc,
    List.getD_cons_zero, List.getD_cons_succ]
  omega

theorem parse_bitpacked (N : MptNode) (rest : List Nat)
    (hs : N.path_nibble_index_start ≤ 1) (hd : N.data_len ≤ 63) :
    byteAt (N.bodyBytes ++ rest) 2 = N.bitpacked := by
  have hb := bitpacked_lt N hs hd
  unfold MptNode.bodyBytes u16LE byteAt
  simp only [List.cons_append, List.nil_append, List.append_assoc,
    List.getD_cons_zero, List.getD_cons_succ]
  omega

theorem parse_path_end (N : MptNode) (rest : List Nat)
    (hp : N.path_nibble_index_end < 2 ^ 8) :
    byteAt (N.bodyBytes ++ rest) 3 = N.path_nibble_index_end := by
  unfold MptNode.bodyBytes u16LE byteAt
  simp only [List.cons_append, List.nil_append, List.append_assoc,
    List.getD_cons_zero, List.getD_cons_succ]
  omega

theorem parse_value_len (N : MptNode) (rest : List Nat)
    (hv : N.value_len < 2 ^ 32) :
    readU32 (N.bodyBytes ++ rest) 4 = N.value_len := by
  unfold MptNode.bodyBytes u16LE u32LE readU32 byteAt
  simp only [List.cons_append, List.nil_append, List.append_assoc,
    List.getD_cons_zero, List.getD_cons_succ]
  omega

theorem MptNode.frontBytes_length (N : MptNode) :
    N.frontBytes.length = 16 + 26 * N.children.length := by
  have h1 : ((N.children.map (fun c => u64LE c.fnext)).flatten).length =
      8 * N.children.length :=
    flatten_map_length_const _ _ _ (fun c _ => rfl)
  have h2 : ((N.children.map (fun c => u40LE c.min_offset_fast)).flatten).length =
      5 * N.children.length :=
    flatten_map_length_const _ _ _ (fun c _ => rfl)
  have h3 : ((N.children.map (fun c => u40LE c.min_offset_slow)).flatten).length =
      5 * N.children.length :=
    flatten_map_length_const _ _ _ (fun c _ => rfl)
  have h4 : ((N.children.map (fun c => u64LE c.subtrie_min_version)).flatten).length =
      8 * N.children.length :=
    flatten_map_length_const _ _ _ (fun c _ => rfl)
  unfold MptNode.frontBytes
  simp only [List.length_append, h1, h2, h3, h4, List.length_cons, List.length_nil]
  have hu16 : (u16LE N.mask).length = 2 := rfl
  have hu32 : (u32LE N.value_len).length = 4 := rfl
  have hu64 : (u64LE N.version).length = 8 := rfl
  omega

theorem bodyBytes_decomp (N : MptNode) (rest : List Nat) :
    N.bodyBytes ++ rest =
      N.frontBytes ++ (N.offsetsBytes ++ (N.tailBytes ++ rest)) := by
  unfold MptNode.bodyBytes MptNode.frontBytes MptNode.offsetsBytes MptNode.tailBytes
  simp [List.append_assoc]

theorem readU16_flatten_u16 (vs : List Nat) : ∀ (i : Nat) (rest : List Nat),
    i < vs.length → (∀ v ∈ vs, v < 2 ^ 16) →
    readU16 ((vs.map u16LE).flatten ++ rest) (2 * i) = vs.getD i 0 := by
  induction vs with
  | nil => intro i rest hi _; simp at hi
  | cons v vs ih =>
    intro i rest hi hb
    cases i with
    | zero =>
      simp only [List.map_cons, List.flatten_cons, List.append_assoc, Nat.mul_zero]
      have hv : v < 2 ^ 16 := hb v (List.mem_cons_self _ _)
      unfold u16LE readU16 byteAt
      simp only [List.cons_append, List.getD_cons_zero, List.getD_cons_succ]
      omega
    | succ i' =>
      simp only [List.map_cons, List.flatten_cons, List.append_assoc]
      rw [show 2 * (i' + 1) = (u16LE v).length + 2 * i' from by
        show 2 * (i' + 1) = 2 + 2 * i'
        omega]
      rw [readU16_of_append, List.getD_cons_succ]
      simp only [List.length_cons] at hi
      exact ih i' rest (by omega) (fun v' hv' => hb v' (List.mem_cons_of_mem _ hv'))

theorem parse_total (N : MptNode) (rest : List Nat) (hne : N.children ≠ [])
    (htot : N.total_child_data < 2 ^ 16) :
    readU16 (N.bodyBytes ++ rest)
      (16 + 26 * N.children.length + 2 * (N.children.length - 1)) =
      N.total_child_data := by
  rw [bodyBytes_decomp]
  rw [show 16 + 26 * N.children.length + 2 * (N.children.length - 1) =
      N.frontBytes.length + 2 * (N.children.length - 1) from by
    rw [MptNode.frontBytes_length]]
  rw [readU16_of_append]
  unfold MptNode.offsetsBytes
  unfold MptNode.total_child_data at htot ⊢
  have hlenmap : (N.children.map (fun c => c.child_data.length)).length =
      N.children.length := List.length_map _ _
  have hne' : N.children.map (fun c => c.child_data.length) ≠ [] := by
    cases hc : N.children with
    | nil => exact absurd hc hne
    | cons a as => simp [hc]
  have hcslen : (cumSums 0 (N.children.map (fun c => c.child_data.length))).length =
      N.children.length := by
    rw [cumSums_length, hlenmap]
  have hpos : 1 ≤ N.children.length := by
    cases hc : N.children with
    | nil => exact absurd hc hne
    | cons a as => simp [hc]
  rw [readU16_flatten_u16 (cumSums 0 (N.children.map (fun c => c.child_data.length)))
    (N.children.length - 1) (N.tailBytes ++ rest)
    (by omega)
    (fun v hv => by
      have := cumSums_mem_le (N.children.map (fun c => c.child_data.length)) 0 v hv
      omega)]
  rw [show N.children.length - 1 =
      (N.children.map (fun c => c.child_data.length)).length - 1 from by
    rw [hlenmap]]
  rw [cumSums_getD_last _ 0 hne']
  omega

theorem mem_size_of_bytes_eq (N : MptNode) (rest : List Nat) (h : N.WF) :
    mem_size_of_bytes (N.bodyBytes ++ rest) =
      calculate_node_size (popcount N.mask) N.total_child_data N.value_len
        N.path_bytes N.data_len := by
  obtain ⟨hmask, hchild, hstart, hdlen63, hpend, hvlen, hval, hv32, hver,
    hpathlen, hdata_len, hnext, htot, hdisk⟩ := h
  simp only [mem_size_of_bytes]
  rw [parse_mask N rest hmask, parse_bitpacked N rest hstart hdlen63,
    parse_path_end N rest hpend, parse_value_len N rest hv32]
  have htotal : (if popcount N.mask = 0 then 0
      else readU16 (N.bodyBytes ++ rest)
        (16 + 26 * popcount N.mask + 2 * (popcount N.mask - 1))) =
      N.total_child_data := by
    by_cases h0 : popcount N.mask = 0
    · rw [if_pos h0]
      have hnil : N.children = [] := by
        rw [← List.length_eq_zero, hchild, h0]
      unfold MptNode.total_child_data
      rw [hnil]
      rfl
    · rw [if_neg h0, ← hchild]
      have hne : N.children ≠ [] := by
        intro hc
        apply h0
        rw [← hchild, hc]
        rfl
      exact parse_total N rest hne htot
  rw [htotal]
  have hvalue : (if N.bitpacked % 2 = 1 then N.value_len else 0) = N.value_len := by
    unfold MptNode.bitpacked
    cases hv : N.has_value with
    | true => rw [if_pos (by simp; omega)]
    | false =>
      rw [if_neg (by simp; omega)]
      rcases hval with h1 | h1
      · rw [hv] at h1; exact absurd h1 (by simp)
      · omega
  rw [hvalue]
  have hps : N.bitpacked / 2 % 2 = N.path_nibble_index_start := by
    unfold MptNode.bitpacked
    cases hv : N.has_value <;> simp <;> omega
  have hpd : N.bitpacked / 4 = N.data_len := by
    unfold MptNode.bitpacked
    cases hv : N.has_value <;> simp <;> omega
  rw [hps, hpd]
  rfl

end MonadMpt

namespace MonadMpt

theorem readU32_u32LE (v : Nat) (rest : List Nat) (hv : v < 2 ^ 32) :
    readU32 (u32LE v ++ rest) 0 = v := by
  unfold u32LE readU32 byteAt
  simp only [List.cons_append, List.nil_append, List.getD_cons_zero,
    List.getD_cons_succ]
  omega

theorem replicate_zero_u64 (n : Nat) :
    ((List.replicate n 0).map u64LE).flatten =
      List.replicate (n * sizeof_pointer) 0 := by
  induction n with
  | zero => rfl
  | succ n ih =>
    simp only [List.replicate_succ, List.map_cons, List.flatten_cons, ih]
    rw [show (n + 1) * sizeof_pointer = 8 + n * sizeof_pointer from by
      unfold sizeof_pointer; ring]
    rw [List.replicate_add]
    rfl

theorem calc_eq_body_len (N : MptNode) (h : N.WF) :
    calculate_node_size (popcount N.mask) N.total_child_data N.value_len
      N.path_bytes N.data_len =
      N.bodyBytes.length + sizeof_pointer * popcount N.mask := by
  obtain ⟨hmask, hchild, hstart, hdlen63, hpend, hvlen, hval, hv32, hver,
    hpathlen, hdata_len, hnext, htot, hdisk⟩ := h
  rw [MptNode.bodyBytes_length, hchild, ← hvlen, hpathlen, hdata_len]
  unfold calculate_node_size sizeof_compact_virtual_chunk_offset
    sizeof_chunk_offset sizeof_pointer
  ring

/-- Claim C1: for every well-formed node whose `next[]` pointers are all
null, serializing it at offset 0 (with the 32-bit `disk_size` prefix) and
deserializing the resulting buffer yields exactly the node's in-memory
image: every region byte-for-byte equal, with the `next[]` region
all-zero. -/
theorem deserialize_serialize_roundtrip (N : MptNode) (h : N.WF)
    (hnull : N.next = List.replicate (popcount N.mask) 0) :
    deserialize_node_from_buffer (serialize_node_to_buffer N) N.get_disk_size =
      some N.toBytes := by
  have hWF := h
  obtain ⟨hmask, hchild, hstart, hdlen63, hpend, hvlen, hval, hv32, hver,
    hpathlen, hdata_len, hnext, htot, hdisk⟩ := h
  have hD32 : N.get_disk_size < 2 ^ 32 := by
    have h1 := hdisk
    unfold max_disk_size at h1
    omega
  have hpos : 0 < N.get_disk_size := by
    unfold MptNode.get_disk_size disk_size_bytes
    omega
  simp only [deserialize_node_from_buffer, serialize_node_to_buffer]
  rw [readU32_u32LE _ _ hD32]
  have hdrop : (u32LE N.get_disk_size ++ N.bodyBytes).drop disk_size_bytes =
      N.bodyBytes := List.drop_left' rfl
  rw [hdrop]
  have hm : readU16 N.bodyBytes 0 = N.mask := by
    have h1 := parse_mask N [] hmask
    rwa [List.append_nil] at h1
  rw [hm]
  have htake : N.bodyBytes.take (N.get_disk_size - disk_size_bytes) =
      N.bodyBytes := by
    have he : N.get_disk_size - disk_size_bytes = N.bodyBytes.length := by
      unfold MptNode.get_disk_size disk_size_bytes
      omega
    rw [he, List.take_length]
  rw [htake]
  rw [mem_size_of_bytes_eq N (List.replicate (popcount N.mask * sizeof_pointer) 0) hWF]
  rw [if_pos ⟨le_rfl, hpos, hdisk⟩]
  rw [if_pos (by
    rw [calc_eq_body_len N hWF]
    unfold MptNode.get_disk_size disk_size_bytes sizeof_pointer
    omega)]
  unfold MptNode.toBytes
  rw [hnull, replicate_zero_u64]

theorem deserialize_serialize_roundtrip_witness :
    (nodeW.WF ∧ nodeW.next = List.replicate (popcount nodeW.mask) 0) ∧
      deserialize_node_from_buffer (serialize_node_to_buffer nodeW)
        nodeW.get_disk_size = some nodeW.toBytes :=
  ⟨⟨by decide, by decide⟩,
    deserialize_serialize_roundtrip nodeW (by decide) (by decide)⟩

/-- Claim C7: `copy_node` produces a node equal to the original in every
region — header, per-child arrays, path, value, inline data, child data —
except the `next[]` region, which is all-zero in the copy; the copy is a
fresh value sharing no state with the original, so mutating it leaves the
original unchanged. -/
theorem copy_node_spec (N : MptNode) (h : N.WF) :
    copy_node N.toBytes =
      MptNode.toBytes { N with next := List.replicate (popcount N.mask) 0 } := by
  have hWF := h
  obtain ⟨hmask, hchild, hstart, hdlen63, hpend, hvlen, hval, hv32, hver,
    hpathlen, hdata_len, hnext, htot, hdisk⟩ := h
  simp only [copy_node]
  unfold MptNode.toBytes
  rw [parse_mask N _ hmask]
  rw [mem_size_of_bytes_eq N _ hWF]
  rw [calc_eq_body_len N hWF]
  rw [show N.bodyBytes.length + sizeof_pointer * popcount N.mask -
      popcount N.mask * sizeof_pointer = N.bodyBytes.length from by
    unfold sizeof_pointer
    omega]
  rw [List.take_left]
  show N.bodyBytes ++ List.replicate (popcount N.mask * sizeof_pointer) 0 =
    N.bodyBytes ++ ((List.replicate (popcount N.mask) 0).map u64LE).flatten
  rw [replicate_zero_u64]

theorem copy_node_spec_witness :
    nodeW.WF ∧ copy_node nodeW.toBytes =
      MptNode.toBytes { nodeW with next := List.replicate (popcount nodeW.mask) 0 } :=
  ⟨by decide, copy_node_spec nodeW (by decide)⟩

/-- Claim C6 (amended): deserialization fails exactly when the 32-bit
`disk_size` prefix is zero, exceeds `max_bytes`, or exceeds
`max_disk_size`, or — the case the claim omits — when the allocation size
`disk_size + n*sizeof(pointer) - 4` disagrees with the deserialized node's
`get_mem_size()`; otherwise it returns the freshly built node bytes. -/
theorem deserialize_failure_iff (src : List Nat) (max_bytes : Nat) :
    deserialize_node_from_buffer src max_bytes = none ↔
      (readU32 src 0 = 0 ∨ max_bytes < readU32 src 0 ∨
        max_disk_size < readU32 src 0 ∨
        readU32 src 0 +
            popcount (readU16 (src.drop disk_size_bytes) 0) * sizeof_pointer -
            disk_size_bytes ≠
          mem_size_of_bytes
            ((src.drop disk_size_bytes).take (readU32 src 0 - disk_size_bytes) ++
              List.replicate
                (popcount (readU16 (src.drop disk_size_bytes) 0) * sizeof_pointer)
                0)) := by
  simp only [deserialize_node_from_buffer]
  split_ifs with h1 h2
  · obtain ⟨ha, hb, hc⟩ := h1
    refine iff_of_false (by simp) ?_
    push_neg
    exact ⟨by omega, by omega, by omega, h2⟩
  · exact iff_of_true rfl (Or.inr (Or.inr (Or.inr h2)))
  · exact iff_of_true rfl (by omega)

theorem deserialize_failure_iff_witness :
    deserialize_node_from_buffer (u32LE 0) 8 = none ↔
      (readU32 (u32LE 0) 0 = 0 ∨ 8 < readU32 (u32LE 0) 0 ∨
        max_disk_size < readU32 (u32LE 0) 0 ∨
        readU32 (u32LE 0) 0 +
            popcount (readU16 ((u32LE 0).drop disk_size_bytes) 0) * sizeof_pointer -
            disk_size_bytes ≠
          mem_size_of_bytes
            (((u32LE 0).drop disk_size_bytes).take (readU32 (u32LE 0) 0 - disk_size_bytes) ++
              List.replicate
                (popcount (readU16 ((u32LE 0).drop disk_size_bytes) 0) * sizeof_pointer)
                0)) :=
  deserialize_failure_iff (u32LE 0) 8

/-- Claim C6 counterexample: the 16-byte buffer with prefix
`disk_size = 16` passes all three size checks (`0 < 16 ≤ max_bytes = 16`
and `16 ≤ max_disk_size`), yet deserialization still fails: the allocation
size 12 disagrees with the parsed node's `get_mem_size() = 16`, tripping
the deserializer's final assertion, so "otherwise it returns a freshly
allocated node" is false. -/
theorem deserialize_valid_size_still_fails :
    ((0 : Nat) < 16 ∧ (16 : Nat) ≤ 16 ∧ (16 : Nat) ≤ max_disk_size) ∧
      readU32 (u32LE 16 ++ List.replicate 12 0) 0 = 16 ∧
      deserialize_node_from_buffer (u32LE 16 ++ List.replicate 12 0) 16 = none := by
  decide

end MonadMpt

namespace MonadMpt

theorem testBit_ctz_self (n : Nat) : n ≠ 0 → n.testBit (ctz n) = true := by
  induction n using Nat.strong_induction_on with
  | _ n ih =>
    intro h0
    by_cases hodd : n % 2 = 1
    · rw [ctz_odd n hodd, Nat.testBit_zero]
      simp [hodd]
    · have heven : n % 2 = 0 := by omega
      rw [ctz_even n h0 heven, Nat.testBit_succ]
      exact ih (n / 2) (Nat.div_lt_self (by omega) (by omega)) (by omega)

theorem testBit_lt_ctz (n : Nat) : n ≠ 0 → ∀ j, j < ctz n → n.testBit j = false := by
  induction n using Nat.strong_induction_on with
  | _ n ih =>
    intro h0 j hj
    by_cases hodd : n % 2 = 1
    · rw [ctz_odd n hodd] at hj
      omega
    · have heven : n % 2 = 0 := by omega
      rw [ctz_even n h0 heven] at hj
      cases j with
      | zero =>
        rw [Nat.testBit_zero]
        simp [heven]
      | succ j' =>
        rw [Nat.testBit_succ]
        exact ih (n / 2) (Nat.div_lt_self (by omega) (by omega)) (by omega) j'
          (by omega)

theorem testBit_and_pred (n : Nat) : n ≠ 0 → ∀ j,
    (n &&& (n - 1)).testBit j = (n.testBit j && !decide (j = ctz n)) := by
  induction n using Nat.strong_induction_on with
  | _ n ih =>
    intro h0 j
    rw [Nat.testBit_land]
    by_cases hodd : n % 2 = 1
    · rw [ctz_odd n hodd]
      cases j with
      | zero =>
        have h1 : (n - 1) % 2 = 0 := by omega
        simp [Nat.testBit_zero, h1, hodd]
      | succ j' =>
        rw [Nat.testBit_succ, Nat.testBit_succ]
        have h1 : (n - 1) / 2 = n / 2 := by omega
        rw [h1]
        simp
    · have heven : n % 2 = 0 := by omega
      rw [ctz_even n h0 heven]
      cases j with
      | zero =>
        simp [Nat.testBit_zero, heven]
      | succ j' =>
        rw [Nat.testBit_succ, Nat.testBit_succ]
        have h1 : (n - 1) / 2 = n / 2 - 1 := by omega
        rw [h1]
        have h2 : n / 2 ≠ 0 := by omega
        have hrec := ih (n / 2) (Nat.div_lt_self (by omega) (by omega)) h2 j'
        rw [Nat.testBit_land] at hrec
        rw [hrec]
        have h3 : (decide (j' + 1 = ctz (n / 2) + 1)) = (decide (j' = ctz (n / 2))) := by
          simp
        rw [h3]

theorem filter_range_least (t : Nat) (p q : Nat → Bool) : ∀ n, t < n →
    p t = true → (∀ j, j < t → p j = false) →
    (∀ j, q j = (p j && !decide (j = t))) →
    (List.range n).filter p = t :: (List.range n).filter q := by
  intro n
  induction n with
  | zero => omega
  | succ n ih =>
    intro ht hpt hlow hq
    rw [List.range_succ, List.filter_append, List.filter_append]
    by_cases hn : t < n
    · rw [ih hn hpt hlow hq]
      have hqn : q n = p n := by
        rw [hq n]
        simp [show ¬(n = t) from by omega]
      have heq : List.filter p [n] = List.filter q [n] := by
        simp [List.filter_singleton, hqn]
      rw [heq, List.cons_append]
    · have ht' : t = n := by omega
      subst ht'
      have h1 : List.filter p (List.range t) = [] := by
        rw [List.filter_eq_nil_iff]
        intro a ha
        rw [List.mem_range] at ha
        simp [hlow a ha]
      have h2 : List.filter q (List.range t) = [] := by
        rw [List.filter_eq_nil_iff]
        intro a ha
        rw [List.mem_range] at ha
        rw [hq a]
        simp [hlow a ha]
      have h3 : List.filter p [t] = [t] := by
        simp [List.filter_singleton, hpt]
      have h4 : List.filter q [t] = [] := by
        have hqt : q t = false := by
          rw [hq t]
          simp
        simp [List.filter_singleton, hqt]
      rw [h1, h2, h3, h4]
      rfl

theorem childrenStepsAux_congr : ∀ f g m : Nat, m ≤ f → m ≤ g →
    childrenStepsAux f m = childrenStepsAux g m := by
  intro f
  induction f with
  | zero =>
    intro g m hf _
    interval_cases m
    cases g <;> simp [childrenStepsAux]
  | succ f ih =>
    intro g m hf hg
    by_cases hm : m = 0
    · subst hm
      cases g <;> simp [childrenStepsAux]
    · obtain ⟨g', rfl⟩ : ∃ g', g = g' + 1 := by
        cases g with
        | zero => omega
        | succ g' => exact ⟨g', rfl⟩
      simp only [childrenStepsAux, if_neg hm]
      congr 1
      have hle : m &&& (m - 1) ≤ m - 1 := Nat.and_le_right
      exact ih g' (m &&& (m - 1)) (by omega) (by omega)

theorem childrenSteps_zero : childrenSteps 0 = [] := rfl

theorem childrenSteps_rec (m : Nat) (h : m ≠ 0) :
    childrenSteps m = ctz m :: childrenSteps (m &&& (m - 1)) := by
  obtain ⟨k, rfl⟩ : ∃ k, m = k + 1 := by
    cases m with
    | zero => omega
    | succ k => exact ⟨k, rfl⟩
  show childrenStepsAux (k + 1) (k + 1) = _
  simp only [childrenStepsAux, if_neg h]
  congr 1
  have hle : (k + 1) &&& k ≤ k := Nat.and_le_right
  exact childrenStepsAux_congr k ((k + 1) &&& ((k + 1) - 1)) ((k + 1) &&& ((k + 1) - 1))
    (by simpa using hle) le_rfl

theorem childrenSteps_eq_filter : ∀ m k : Nat, m < 2 ^ k →
    childrenSteps m = (List.range k).filter (fun b => m.testBit b) := by
  intro m
  induction m using Nat.strong_induction_on with
  | _ m ih =>
    intro k hk
    by_cases h0 : m = 0
    · subst h0
      rw [childrenSteps_zero]
      symm
      rw [List.filter_eq_nil_iff]
      intro a _
      simp [Nat.zero_testBit]
    · rw [childrenSteps_rec m h0]
      have hlt : m &&& (m - 1) < m := by
        have h1 : m &&& (m - 1) ≤ m - 1 := Nat.and_le_right
        omega
      rw [ih (m &&& (m - 1)) hlt k (by omega)]
      symm
      have htk : ctz m < k := by
        by_contra hge
        have h1 : m < 2 ^ ctz m :=
          Nat.lt_of_lt_of_le hk (Nat.pow_le_pow_right (by omega) (by omega))
        have h2 := Nat.testBit_lt_two_pow h1
        rw [testBit_ctz_self m h0] at h2
        exact absurd h2 (by simp)
      exact filter_range_least (ctz m) _ _ k htk (testBit_ctz_self m h0)
        (testBit_lt_ctz m h0) (testBit_and_pred m h0)

end MonadMpt

namespace MonadMpt

theorem length_filter_map {α β : Type} (l : List α) (f : α → β) (p : β → Bool) :
    ((l.map f).filter p).length = (l.filter (fun a => p (f a))).length := by
  induction l with
  | nil => rfl
  | cons a l ih =>
    simp only [List.map_cons, List.filter_cons]
    cases hp : p (f a) <;> simp [hp, ih]

theorem popcount_eq_filter_length : ∀ k m : Nat, m < 2 ^ k →
    popcount m = ((List.range k).filter (fun j => m.testBit j)).length := by
  intro k
  induction k with
  | zero =>
    intro m hm
    have h0 : m = 0 := by omega
    subst h0
    rfl
  | succ k ih =>
    intro m hm
    rw [List.range_succ_eq_map]
    by_cases h0 : m = 0
    · subst h0
      simp [Nat.zero_testBit, popcount_zero]
    · have hdiv : m / 2 < 2 ^ k := by
        have h2 : 2 ^ (k + 1) = 2 * 2 ^ k := by ring
        omega
      rw [popcount_rec m h0, ih (m / 2) hdiv]
      have hx : (((List.range k).map Nat.succ).filter (fun j => m.testBit j)).length =
          ((List.range k).filter (fun j => (m / 2).testBit j)).length := by
        rw [length_filter_map]
        congr 1
        apply List.filter_congr
        intro a _
        exact Nat.testBit_succ m a
      cases hb : m.testBit 0
      · have hm2 : m % 2 = 0 := by
          rw [Nat.testBit_zero] at hb
          simp at hb
          omega
        simp only [List.filter_cons, hb]
        simp only [Bool.false_eq_true, if_false]
        rw [hx]
        omega
      · have hm2 : m % 2 = 1 := by
          rw [Nat.testBit_zero] at hb
          simpa using hb
        simp only [List.filter_cons, hb, if_true]
        rw [List.length_cons, hx]
        omega

theorem enumFromN_snd (l : List Nat) : ∀ i, (enumFromN i l).map Prod.snd = l := by
  induction l with
  | nil => intro i; rfl
  | cons b bs ih =>
    intro i
    simp only [enumFromN, List.map_cons, ih (i + 1)]

theorem enumFromN_length (l : List Nat) : ∀ i, (enumFromN i l).length = l.length := by
  induction l with
  | nil => intro i; rfl
  | cons b bs ih =>
    intro i
    simp only [enumFromN, List.length_cons, ih (i + 1)]

theorem enumFromN_fst (l : List Nat) : ∀ i,
    (enumFromN i l).map Prod.fst = (List.range l.length).map (fun x => x + i) := by
  induction l with
  | nil => intro i; rfl
  | cons b bs ih =>
    intro i
    simp only [enumFromN, List.map_cons, List.length_cons]
    rw [List.range_succ_eq_map]
    simp only [List.map_cons, Nat.zero_add]
    congr 1
    rw [ih (i + 1), List.map_map]
    apply List.map_congr_left
    intro a _
    show a + (i + 1) = a.succ + i
    omega

theorem enumFromN_append (ys : List Nat) : ∀ (xs : List Nat) (i : Nat),
    enumFromN i (xs ++ ys) = enumFromN i xs ++ enumFromN (i + xs.length) ys := by
  intro xs
  induction xs with
  | nil => intro i; simp [enumFromN]
  | cons x xs ih =>
    intro i
    show (i, x) :: enumFromN (i + 1) (xs ++ ys) =
      ((i, x) :: enumFromN (i + 1) xs) ++ enumFromN (i + (xs.length + 1)) ys
    rw [ih (i + 1), List.cons_append]
    rw [show i + (xs.length + 1) = i + 1 + xs.length from by omega]

theorem enumFromN_filter_range_fst (p : Nat → Bool) : ∀ (n : Nat) (pr : Nat × Nat),
    pr ∈ enumFromN 0 ((List.range n).filter p) →
    pr.1 = ((List.range pr.2).filter p).length := by
  intro n
  induction n with
  | zero => intro pr h; simp [enumFromN] at h
  | succ n ih =>
    intro pr h
    rw [List.range_succ, List.filter_append, enumFromN_append] at h
    rcases List.mem_append.mp h with h1 | h1
    · exact ih pr h1
    · by_cases hp : p n = true
      · rw [show List.filter p [n] = [n] from by simp [List.filter_singleton, hp]] at h1
        simp only [enumFromN, List.mem_singleton] at h1
        subst h1
        simp
      · rw [show List.filter p [n] = [] from by
          simp [List.filter_singleton, hp]] at h1
        simp [enumFromN] at h1

/-- Claim C5: iterating `NodeChildrenRange(mask)` yields exactly one pair
per set bit of the 16-bit mask — the branches in ascending order, the
dense index running 0, 1, 2, … — and every yielded dense index equals
`to_child_index(branch) = popcount(mask & ((1 << branch) - 1))`. -/
theorem children_range_spec (mask : Nat) (h : mask < 2 ^ 16) :
    ((NodeChildrenRange mask).map Prod.snd =
        (List.range 16).filter (fun b => mask.testBit b)) ∧
      ((NodeChildrenRange mask).map Prod.fst =
        List.range (NodeChildrenRange mask).length) ∧
      (NodeChildrenRange mask).length = popcount mask ∧
      List.Pairwise (· < ·) ((NodeChildrenRange mask).map Prod.snd) ∧
      (∀ i b : Nat, (i, b) ∈ NodeChildrenRange mask →
        i = to_child_index mask b) := by
  have hsnd : (NodeChildrenRange mask).map Prod.snd =
      (List.range 16).filter (fun b => mask.testBit b) := by
    unfold NodeChildrenRange
    rw [enumFromN_snd, childrenSteps_eq_filter mask 16 h]
  refine ⟨hsnd, ?_, ?_, ?_, ?_⟩
  · unfold NodeChildrenRange
    rw [enumFromN_fst, enumFromN_length]
    simp
  · unfold NodeChildrenRange
    rw [enumFromN_length, childrenSteps_eq_filter mask 16 h,
      ← popcount_eq_filter_length 16 mask h]
  · rw [hsnd]
    exact List.Pairwise.filter _ (List.pairwise_lt_range 16)
  · intro i b hmem
    unfold NodeChildrenRange at hmem
    rw [childrenSteps_eq_filter mask 16 h] at hmem
    have hidx : i = ((List.range b).filter (fun j => mask.testBit j)).length :=
      enumFromN_filter_range_fst (fun b => mask.testBit b) 16 (i, b) hmem
    unfold to_child_index
    rw [Nat.shiftLeft_eq, one_mul, land_two_pow_sub_one_eq_mod]
    have hb2 : mask % 2 ^ b < 2 ^ b := Nat.mod_lt _ (Nat.pos_pow_of_pos _ (by omega))
    rw [popcount_eq_filter_length b (mask % 2 ^ b) hb2]
    rw [hidx]
    congr 1
    apply List.filter_congr
    intro a ha
    rw [List.mem_range] at ha
    rw [Nat.testBit_mod_two_pow]
    simp [ha]

theorem children_range_spec_witness :
    (275 : Nat) < 2 ^ 16 ∧
      (((NodeChildrenRange 275).map Prod.snd =
          (List.range 16).filter (fun b => Nat.testBit 275 b)) ∧
        ((NodeChildrenRange 275).map Prod.fst =
          List.range (NodeChildrenRange 275).length) ∧
        (NodeChildrenRange 275).length = popcount 275 ∧
        List.Pairwise (· < ·) ((NodeChildrenRange 275).map Prod.snd) ∧
        (∀ i b : Nat, (i, b) ∈ NodeChildrenRange 275 →
          i = to_child_index 275 b)) :=
  ⟨by decide, children_range_spec 275 (by decide)⟩

end MonadMpt



namespace MonadMpt

theorem get_disk_size_def (N : MptNode) :
    N.get_disk_size = disk_size_bytes + N.bodyBytes.length := rfl

theorem make_leaf_eq (value path : List Nat) (path_start path_end version : Nat) :
    make_leaf value path path_start path_end version =
      if value.length ≤ MAX_VALUE_LEN_OF_LEAF then
        some { mask := 0, has_value := true, path_nibble_index_start := path_start,
               data_len := 0, path_nibble_index_end := path_end,
               value_len := value.length, version := version, children := [],
               path := path, value := value, data := [], next := [] }
      else none := rfl

theorem bigLeaf_disk_size : bigLeaf.get_disk_size = 268435428 := by
  rw [get_disk_size_def, MptNode.bodyBytes_length]
  have hch : bigLeaf.children = [] := rfl
  have htot : bigLeaf.total_child_data = 0 := rfl
  have hval : bigLeaf.value.length = MAX_VALUE_LEN_OF_LEAF :=
    List.length_replicate _ _
  have hpath : bigLeaf.path.length = 32 := List.length_replicate _ _
  have hdata : bigLeaf.data.length = 0 := rfl
  rw [hch, htot, hval, hpath, hdata]
  have hmax : MAX_VALUE_LEN_OF_LEAF = 268435376 := rfl
  rw [hmax]
  decide

/-- Claim C9 counterexample: the scenario-S6 leaf — `value_len =
MAX_VALUE_LEN_OF_LEAF`, a 64-nibble (32-byte) path, `data_len = 0` — has
`get_disk_size() = 268435428`, which is `max_disk_size - 28`, not
`max_disk_size = 268435456`: the `KECCAK256_SIZE` data reserve built into
the `MAX_VALUE_LEN_OF_LEAF` derivation is not occupied when
`data_len = 0`. -/
theorem max_leaf_not_max_disk_size :
    bigLeaf.get_disk_size ≠ max_disk_size ∧
      bigLeaf.get_disk_size = 268435428 ∧ max_disk_size = 268435456 := by
  have h := bigLeaf_disk_size
  refine ⟨?_, h, rfl⟩
  rw [h]
  decide

/-- Claim C9 (amended): the scenario-S6 leaf (`value_len =
MAX_VALUE_LEN_OF_LEAF`, a 64-nibble path, `data_len = 0`) has
`get_disk_size() = max_disk_size - KECCAK256_SIZE + disk_size_bytes`
(268435428); its construction succeeds, and one more byte of value fails
the construction assertion. -/
theorem max_leaf_disk_size :
    bigLeaf.get_disk_size = max_disk_size - KECCAK256_SIZE + disk_size_bytes ∧
      make_leaf (List.replicate MAX_VALUE_LEN_OF_LEAF 0) (List.replicate 32 0)
        0 64 0 = some bigLeaf ∧
      make_leaf (List.replicate (MAX_VALUE_LEN_OF_LEAF + 1) 0)
        (List.replicate 32 0) 0 64 0 = none := by
  refine ⟨?_, ?_, ?_⟩
  · rw [bigLeaf_disk_size]
    decide
  · rw [make_leaf_eq]
    rw [if_pos (le_of_eq (List.length_replicate _ _))]
    rw [List.length_replicate]
    rfl
  · rw [make_leaf_eq]
    rw [if_neg (by rw [List.length_replicate]; omega)]

end MonadMpt
